import Mathlib

/-!
Verification of the `verify_ctrld` binary-fetch-and-verify installer.

The installer (`library/verify_ctrld.py`) downloads a binary and a detached
checksum manifest, parses the expected digest for the binary's basename out
of the manifest, verifies the cached binary (with a single re-fetch on
mismatch), and atomically installs the verified file at a destination path
with mode 0755, reporting a `changed` flag.

The embedding below models:
  * the filesystem as an association list from paths to file records
    (content and permission mode); parent directories are abstracted away
    except for the structural failure of `os.makedirs("")`;
  * remote HTTP content as a function from URLs to optional contents;
  * each run as a sequence of atomic filesystem effects (`Eff`), so that
    intermediate states of a run are the fold of any prefix of the trace;
  * the SHA-256 digest as an explicit parameter `hashFn` (the chunked
    streaming structure of `sha256sum` is modelled separately, parameterized
    over the per-byte compression step, since the claims about it are
    independent of the concrete compression function).

Strings are modelled as `List Char`.
-/

abbrev Str := List Char

/-- Whitespace characters recognised by Python's `str.split()` with no
arguments: space, tab, newline, carriage return, vertical tab, form feed. -/
def isSpace (c : Char) : Bool :=
  c == ' ' || c == '\t' || c == '\n' || c == '\r' || c == '\x0b' || c == '\x0c'

/-- Python's `os.path.basename`: the part of the path after the last `/`. -/
def basename (p : Str) : Str :=
  p.foldl (fun acc c => if c = '/' then [] else acc ++ [c]) []

/-- Remove trailing `/` characters. -/
def rstripSlash (p : Str) : Str :=
  (p.reverse.dropWhile (fun c => c = '/')).reverse

/-- Python's `os.path.dirname`: everything up to the last `/`, with trailing slashes
stripped unless the head consists only of slashes. -/
def dirname (p : Str) : Str :=
  let head := p.take (p.length - (basename p).length)
  if !head.isEmpty && head.any (fun c => c != '/') then rstripSlash head else head

/-- Python's `os.path.join` for an absolute directory and a relative name. -/
def pjoin (a b : Str) : Str := a ++ '/' :: b

/-- Python's `tempfile.gettempdir()`. -/
def tmpdir : Str := "/tmp".toList

/-- The binary cache path `os.path.join(tempfile.gettempdir(), os.path.basename(url))`. -/
def cacheFile (url : Str) : Str := pjoin tmpdir (basename url)

/-- The manifest cache path `os.path.join(tempfile.gettempdir(), 'ctrld.sha256')`. -/
def checksumFilePath : Str := pjoin tmpdir ("ctrld.sha256".toList)

/-- Does `l` start with `pre`? (helper for substring containment). -/
def startsWith : Str → Str → Bool
  | _, [] => true
  | [], _ :: _ => false
  | a :: as, b :: bs => a == b && startsWith as bs

/-- Python's substring test `needle in hay`. -/
def strContains (hay needle : Str) : Bool :=
  if startsWith hay needle then true
  else
    match hay with
    | [] => false
    | _ :: t => strContains t needle

/-- Iterating a text file line by line, as Python file iteration does:
every line keeps its trailing newline; a final line without a newline is
still yielded; a trailing newline yields no extra empty line. -/
def splitLinesGo : Str → Str → List Str
  | acc, [] => if acc.isEmpty then [] else [acc.reverse]
  | acc, c :: rest =>
    if c = '\n' then ('\n' :: acc).reverse :: splitLinesGo [] rest
    else splitLinesGo (c :: acc) rest

def splitLines (s : Str) : List Str := splitLinesGo [] s

/-- Python `str.split()` with no arguments: split on runs of whitespace,
dropping empty tokens. -/
def splitWsGo : Str → Str → List Str
  | acc, [] => if acc.isEmpty then [] else [acc.reverse]
  | acc, c :: rest =>
    if isSpace c then
      if acc.isEmpty then splitWsGo [] rest
      else acc.reverse :: splitWsGo [] rest
    else splitWsGo (c :: acc) rest

def splitWs (s : Str) : List Str := splitWsGo [] s

/-- A file on disk: its byte content (modelled as a string) and its
permission mode bits. -/
structure FileRec where
  content : Str
  mode : Nat
deriving DecidableEq

/-- The filesystem: an association list from paths to file records. -/
abbrev FS := List (Str × FileRec)

def getFile : FS → Str → Option FileRec
  | [], _ => none
  | (q, r) :: fs, p => if p = q then some r else getFile fs p

def delFile : FS → Str → FS
  | [], _ => []
  | (q, r) :: fs, p => if p = q then delFile fs p else (q, r) :: delFile fs p

def putFile (fs : FS) (p : Str) (r : FileRec) : FS := (p, r) :: delFile fs p

/-- Remote content: maps a URL to the body served there, or `none` when the
resource is unreachable. -/
abbrev Remote := Str → Option Str

/-- Mode bits of a freshly created download target (0o644 under the default
umask); a download into an existing file keeps that file's mode. -/
def downloadMode : Nat := 420

/-- The atomic filesystem effects a run performs, in program order. -/
inductive Eff
  | download (url : Str) (path : Str)
  | mkdirs (path : Str)
  | replace (src : Str) (dst : Str)
  | chmod (path : Str) (mode : Nat)
deriving DecidableEq

/-- Semantics of one atomic effect.  `download` truncate-writes the target
(keeping an existing file's mode); `mkdirs` only touches directories, which
the file map abstracts away; `replace` is `os.replace`: the destination
atomically becomes the source record and the source disappears; `chmod`
updates mode bits. -/
def applyEff (remote : Remote) (fs : FS) : Eff → FS
  | .download u p =>
    match remote u with
    | some c =>
      match getFile fs p with
      | some old => putFile fs p ⟨c, old.mode⟩
      | none => putFile fs p ⟨c, downloadMode⟩
    | none => fs
  | .mkdirs _ => fs
  | .replace src dst =>
    match getFile fs src with
    | some r => putFile (delFile fs src) dst r
    | none => fs
  | .chmod p m =>
    match getFile fs p with
    | some r => putFile fs p ⟨r.content, m⟩
    | none => fs

def applyTrace (remote : Remote) (fs : FS) (t : List Eff) : FS :=
  t.foldl (applyEff remote) fs

/-- Run state: the filesystem together with the trace of effects performed
so far. -/
structure St where
  fs : FS
  trace : List Eff
deriving DecidableEq

/-- Perform one atomic effect. -/
def stStep (remote : Remote) (s : St) (e : Eff) : St :=
  ⟨applyEff remote s.fs e, s.trace ++ [e]⟩

/-- Exceptions reaching the top-level `except Exception` handler. -/
inductive Exc
  | fetchError (url : Str)
  | ioError
  | indexError
deriving DecidableEq

/-- The distinct `fail_json` messages of the module. -/
inductive FailMsg
  | shaNotFound (url : Str)
  | checksumMismatch (url : Str)
  | exc (e : Exc)
deriving DecidableEq

/-- The module's outcome: `exit_json(changed=..., dest=..., sha256=...)` or
`fail_json(msg=...)`. -/
inductive RunRes
  | exitJson (changed : Bool) (dest : Str) (sha : Str)
  | failJson (msg : FailMsg)
deriving DecidableEq

deriving instance DecidableEq for Except

/-- The module's `download(url, dest)` = `urllib.request.urlretrieve`: raises on an
unreachable resource, otherwise writes the body to `dest`. -/
def fetchStep (remote : Remote) (u p : Str) (s : St) : Except (Exc × St) St :=
  match remote u with
  | some _ => .ok (stStep remote s (.download u p))
  | none => .error (.fetchError u, s)

/-- Reading a file, `open(path).read()`: the content of an existing file, or an I/O error. -/
def readFile (fs : FS) (p : Str) : Except Exc Str :=
  match getFile fs p with
  | some r => .ok r.content
  | none => .error .ioError

/-- Lines 38–45 of the module: download the binary into the cache if the
cache file does not exist, then download the checksum manifest
unconditionally. -/
def phaseFetch (remote : Remote) (url churl : Str) (s : St) : Except (Exc × St) St :=
  if (getFile s.fs (cacheFile url)).isSome then
    fetchStep remote churl checksumFilePath s
  else
    match fetchStep remote url (cacheFile url) s with
    | .error e => .error e
    | .ok s1 => fetchStep remote churl checksumFilePath s1

/-- Lines 47–53: scan the manifest line by line; on the first line containing
the basename as a substring, take `line.split()[0]` (raising `IndexError`
when the matching line has no tokens) and stop; `none` when no line
matches. -/
def parseSha (manifest bname : Str) : Except Exc (Option Str) :=
  match (splitLines manifest).find? (fun l => strContains l bname) with
  | none => .ok none
  | some l =>
    match (splitWs l).head? with
    | some tok => .ok (some tok)
    | none => .error .indexError

/-- Lines 58–64: hash the cached file; on mismatch re-download once and
re-hash; a persisting mismatch is the terminal checksum failure. -/
def phaseVerify (hashFn : Str → Str) (remote : Remote) (url expected : Str)
    (s : St) : Except (FailMsg × St) St :=
  match readFile s.fs (cacheFile url) with
  | .error e => .error (.exc e, s)
  | .ok c =>
    if hashFn c = expected then .ok s
    else
      match fetchStep remote url (cacheFile url) s with
      | .error (e, s1) => .error (.exc e, s1)
      | .ok s1 =>
        match readFile s1.fs (cacheFile url) with
        | .error e => .error (.exc e, s1)
        | .ok c1 =>
          if hashFn c1 = expected then .ok s1
          else .error (.checksumMismatch url, s1)

/-- Lines 66–74: if the destination is missing or its digest differs from
the expected one, create the parent directory (`os.makedirs` raises on the
empty dirname of a bare filename), atomically move the cache file onto the
destination, and set mode 0755, reporting `changed=true`; otherwise report
`changed=false`. -/
def phaseInstall (hashFn : Str → Str) (remote : Remote) (url dest expected : Str)
    (s : St) : RunRes × St :=
  let need : Bool :=
    match getFile s.fs dest with
    | none => true
    | some r => hashFn r.content != expected
  if need then
    if dirname dest = [] then (.failJson (.exc .ioError), s)
    else
      let s1 := stStep remote s (.mkdirs (dirname dest))
      let s2 := stStep remote s1 (.replace (cacheFile url) dest)
      let s3 := stStep remote s2 (.chmod dest 493)
      (.exitJson true dest expected, s3)
  else (.exitJson false dest expected, s)

/-- The whole module run (`main` of `verify_ctrld.py`): fetch, parse the
expected digest, verify with one bounded retry, then install idempotently.
Every exception is caught at the top level and surfaced as a failure; the
returned state carries the filesystem and the full effect trace. -/
def mainRun (hashFn : Str → Str) (remote : Remote) (url churl dest : Str)
    (fs0 : FS) : RunRes × St :=
  match phaseFetch remote url churl ⟨fs0, []⟩ with
  | .error (e, s) => (.failJson (.exc e), s)
  | .ok s1 =>
    match readFile s1.fs checksumFilePath with
    | .error e => (.failJson (.exc e), s1)
    | .ok man =>
      match parseSha man (basename url) with
      | .error e => (.failJson (.exc e), s1)
      | .ok none => (.failJson (.shaNotFound url), s1)
      | .ok (some expected) =>
        match phaseVerify hashFn remote url expected s1 with
        | .error (m, s2) => (.failJson m, s2)
        | .ok s2 => phaseInstall hashFn remote url dest expected s2

/-- Split a byte string into successive chunks of 8192 bytes, as
`iter(lambda: f.read(8192), b'')` yields them. -/
def chunkRead (l : Str) : List Str :=
  if h : l = [] then []
  else have _ := h; l.take 8192 :: chunkRead (l.drop 8192)
termination_by l.length
decreasing_by
  simp only [List.length_drop]
  have hpos : 0 < l.length := List.length_pos.mpr h
  omega

/-- Model of `hashlib`'s incremental `update`: absorb a byte string into the hash
state by folding the compression step over its bytes. -/
def hashUpdate {α : Type} (step : α → Char → α) (s : α) (data : Str) : α :=
  data.foldl step s

/-- The module's `sha256sum` (lines 11–16): stream the file in 8192-byte chunks, updating
the hash state incrementally, and finalize at the end.  The compression
step, initial state and finalization are parameters standing for SHA-256's
internals. -/
def sha256sum {α : Type} (step : α → Char → α) (init : α) (final : α → Str)
    (content : Str) : Str :=
  final ((chunkRead content).foldl (hashUpdate step) init)

/-- The reference digest: hash the whole content in one `update` call. -/
def sha256Ref {α : Type} (step : α → Char → α) (init : α) (final : α → Str)
    (content : Str) : Str :=
  final (hashUpdate step init content)

/-- Modelled from the spec (§4.2), for comparison with the code's parsing
loop: the expected digest is the first whitespace-separated token of the
first line whose content contains the target filename as a substring. -/
def specExpectedDigest (manifest target : Str) : Option Str :=
  ((splitLines manifest).find? (fun l => strContains l target)).bind
    (fun l => (splitWs l).head?)

/-- A concrete digest function (the identity on contents) used to
instantiate the abstract hash parameter in closed instances; the claims
about the installer's control flow hold for any digest function. -/
def idDigest : Str → Str := fun c => c

/-- Build a remote from an association list of URL/body pairs. -/
def mkRemote (assoc : List (Str × Str)) : Remote :=
  fun u => (assoc.find? (fun e => e.1 == u)).map (fun e => e.2)

/-- A remote whose manifest matches the binary at `u/b`. -/
def remGood : Remote :=
  mkRemote [("u/b".toList, "H".toList), ("u/s".toList, "H b\n".toList)]

/-- A remote whose manifest has no entry for the binary's basename `b`. -/
def remNoEntry : Remote :=
  mkRemote [("u/b".toList, "H".toList), ("u/s".toList, "ZZZ x\n".toList)]

/-- A remote serving a binary that never matches the manifest digest. -/
def remBad : Remote :=
  mkRemote [("u/b".toList, "W".toList), ("u/s".toList, "H b\n".toList)]

/-- Does the effect write to (create, overwrite, move, re-mode or remove)
the file at path `p`? -/
def writesPath (e : Eff) (p : Str) : Bool :=
  match e with
  | .download _ q => q == p
  | .mkdirs _ => false
  | .replace src dst => src == p || dst == p
  | .chmod q _ => q == p

/-- The state in either outcome of a fallible stage. -/
def errSt {α : Type} : Except (α × St) St → St
  | .ok s => s
  | .error (_, s) => s

/-- State `s'` extends `s` by some trace suffix, and its filesystem is the fold of
that suffix over `s`'s filesystem. -/
def StDelta (remote : Remote) (s s' : St) : Prop :=
  ∃ t, s'.trace = s.trace ++ t ∧ s'.fs = applyTrace remote s.fs t

/-- The trace suffix appended by the install step. -/
def installEffs (url dest : Str) : List Eff :=
  [.mkdirs (dirname dest), .replace (cacheFile url) dest, .chmod dest 493]

/-- The idempotence check of lines 66–68, evaluated on a filesystem: the
destination exists and its digest equals the expected digest. -/
def destUpToDate (hashFn : Str → Str) (fs : FS) (dest d : Str) : Bool :=
  match getFile fs dest with
  | none => false
  | some r => hashFn r.content == d

/-! ## Basic lemmas about the filesystem model -/

theorem getFile_delFile_self (fs : FS) (p : Str) :
    getFile (delFile fs p) p = none := by
  induction fs with
  | nil => rfl
  | cons e fs ih =>
    obtain ⟨q, r⟩ := e
    by_cases h : p = q
    · simpa [delFile, h] using ih
    · simp [delFile, getFile, h, ih]

theorem getFile_delFile_ne (fs : FS) (p q : Str) (h : q ≠ p) :
    getFile (delFile fs p) q = getFile fs q := by
  induction fs with
  | nil => rfl
  | cons e fs ih =>
    obtain ⟨a, r⟩ := e
    by_cases h2 : p = a
    · subst h2
      simp [delFile, getFile, h, ih]
    · by_cases h3 : q = a <;> simp [delFile, getFile, h2, h3, ih]

theorem getFile_putFile (fs : FS) (p : Str) (r : FileRec) (q : Str) :
    getFile (putFile fs p r) q = if q = p then some r else getFile fs q := by
  by_cases h : q = p
  · simp [putFile, getFile, h]
  · simp [putFile, getFile, h, getFile_delFile_ne fs p q h]

theorem applyEff_frame (remote : Remote) (fs : FS) (e : Eff) (p : Str)
    (h : writesPath e p = false) :
    getFile (applyEff remote fs e) p = getFile fs p := by
  cases e with
  | download u q =>
    simp only [writesPath, beq_eq_false_iff_ne, ne_eq] at h
    have hps : ¬p = q := fun hh => h hh.symm
    cases hr : remote u with
    | none => simp [applyEff, hr]
    | some c =>
      cases hg : getFile fs q <;>
        simp [applyEff, hr, hg, getFile_putFile, hps]
  | mkdirs q => simp [applyEff]
  | replace src dst =>
    simp only [writesPath, Bool.or_eq_false_iff, beq_eq_false_iff_ne, ne_eq] at h
    have hps : ¬p = src := fun hh => h.1 hh.symm
    have hpd : ¬p = dst := fun hh => h.2 hh.symm
    cases hg : getFile fs src with
    | none => simp [applyEff, hg]
    | some r =>
      simp [applyEff, hg, getFile_putFile, hpd,
        getFile_delFile_ne fs src p hps]
  | chmod q m =>
    simp only [writesPath, beq_eq_false_iff_ne, ne_eq] at h
    have hps : ¬p = q := fun hh => h hh.symm
    cases hg : getFile fs q <;>
      simp [applyEff, hg, getFile_putFile, hps]

theorem applyTrace_nil (remote : Remote) (fs : FS) :
    applyTrace remote fs [] = fs := rfl

theorem applyTrace_cons (remote : Remote) (fs : FS) (e : Eff) (t : List Eff) :
    applyTrace remote fs (e :: t) = applyTrace remote (applyEff remote fs e) t :=
  rfl

theorem applyTrace_append (remote : Remote) (fs : FS) (t1 t2 : List Eff) :
    applyTrace remote fs (t1 ++ t2) = applyTrace remote (applyTrace remote fs t1) t2 :=
  List.foldl_append ..

theorem applyTrace_frame (remote : Remote) (t : List Eff) (p : Str)
    (h : ∀ e ∈ t, writesPath e p = false) (fs : FS) :
    getFile (applyTrace remote fs t) p = getFile fs p := by
  induction t generalizing fs with
  | nil => rfl
  | cons e t ih =>
    have he := h e (List.mem_cons_self e t)
    have ht : ∀ e' ∈ t, writesPath e' p = false :=
      fun e' hm => h e' (List.mem_cons_of_mem e hm)
    calc getFile (applyTrace remote fs (e :: t)) p
        = getFile (applyTrace remote (applyEff remote fs e) t) p := rfl
      _ = getFile (applyEff remote fs e) p := ih ht (applyEff remote fs e)
      _ = getFile fs p := applyEff_frame remote fs e p he

/-- A successful download leaves the fetched body at the target path (with
some mode bits, depending on whether the file already existed). -/
theorem applyEff_download_self (remote : Remote) (fs : FS) (u p : Str) (c : Str)
    (hr : remote u = some c) :
    ∃ m, getFile (applyEff remote fs (.download u p)) p = some ⟨c, m⟩ := by
  cases hg : getFile fs p with
  | none => exact ⟨downloadMode, by simp [applyEff, hr, hg, getFile_putFile]⟩
  | some old => exact ⟨old.mode, by simp [applyEff, hr, hg, getFile_putFile]⟩

/-! ## Run states as folds of their effect traces -/

theorem StDelta.rfl (remote : Remote) (s : St) : StDelta remote s s :=
  ⟨[], by simp [applyTrace]⟩

theorem StDelta.trans {remote : Remote} {s1 s2 s3 : St}
    (h1 : StDelta remote s1 s2) (h2 : StDelta remote s2 s3) :
    StDelta remote s1 s3 := by
  obtain ⟨t1, ha1, hb1⟩ := h1
  obtain ⟨t2, ha2, hb2⟩ := h2
  exact ⟨t1 ++ t2, by rw [ha2, ha1, List.append_assoc],
    by rw [hb2, hb1, applyTrace_append]⟩

theorem stStep_delta (remote : Remote) (s : St) (e : Eff) :
    StDelta remote s (stStep remote s e) :=
  ⟨[e], by simp [stStep, applyTrace]⟩

theorem eq_of_mem_opt {α : Type} {t : List α} {a : α}
    (h : t = [] ∨ t = [a]) : ∀ e ∈ t, e = a := by
  rcases h with rfl | rfl
  · intro e he
    cases he
  · intro e he
    simpa using he

theorem fetchStep_delta (remote : Remote) (u p : Str) (s : St) :
    ∃ t, (errSt (fetchStep remote u p s)).trace = s.trace ++ t ∧
      (errSt (fetchStep remote u p s)).fs = applyTrace remote s.fs t ∧
      (t = [] ∨ t = [Eff.download u p]) := by
  cases hr : remote u with
  | none => exact ⟨[], by simp [fetchStep, hr, errSt, applyTrace]⟩
  | some c =>
    exact ⟨[.download u p], by simp [fetchStep, hr, errSt, stStep, applyTrace]⟩

theorem phaseFetch_delta (remote : Remote) (url churl : Str) (s : St) :
    ∃ t, (errSt (phaseFetch remote url churl s)).trace = s.trace ++ t ∧
      (errSt (phaseFetch remote url churl s)).fs = applyTrace remote s.fs t ∧
      ∀ e ∈ t, e = Eff.download url (cacheFile url) ∨
        e = Eff.download churl checksumFilePath := by
  by_cases hc : (getFile s.fs (cacheFile url)).isSome
  · obtain ⟨t, h1, h2, h3⟩ := fetchStep_delta remote churl checksumFilePath s
    exact ⟨t, by simpa [phaseFetch, hc] using h1, by simpa [phaseFetch, hc] using h2,
      fun e he => Or.inr (eq_of_mem_opt h3 e he)⟩
  · cases hf : fetchStep remote url (cacheFile url) s with
    | error es =>
      obtain ⟨t, h1, h2, h3⟩ := fetchStep_delta remote url (cacheFile url) s
      rw [hf] at h1 h2
      exact ⟨t, by simpa [phaseFetch, hc, hf] using h1,
        by simpa [phaseFetch, hc, hf] using h2,
        fun e he => Or.inl (eq_of_mem_opt h3 e he)⟩
    | ok s1 =>
      obtain ⟨t, h1, h2, h3⟩ := fetchStep_delta remote url (cacheFile url) s
      rw [hf] at h1 h2
      simp only [errSt] at h1 h2
      obtain ⟨t', h1', h2', h3'⟩ := fetchStep_delta remote churl checksumFilePath s1
      refine ⟨t ++ t', ?_, ?_, ?_⟩
      · simp only [phaseFetch, hc, Bool.false_eq_true, if_false, hf]
        rw [h1', h1, List.append_assoc]
      · simp only [phaseFetch, hc, Bool.false_eq_true, if_false, hf]
        rw [h2', h2, applyTrace_append]
      · intro e he
        rcases List.mem_append.mp he with hm | hm
        · exact Or.inl (eq_of_mem_opt h3 e hm)
        · exact Or.inr (eq_of_mem_opt h3' e hm)

theorem phaseVerify_delta (hashFn : Str → Str) (remote : Remote)
    (url expected : Str) (s : St) :
    ∃ t, (errSt (phaseVerify hashFn remote url expected s)).trace = s.trace ++ t ∧
      (errSt (phaseVerify hashFn remote url expected s)).fs = applyTrace remote s.fs t ∧
      (t = [] ∨ t = [Eff.download url (cacheFile url)]) := by
  cases hrf : readFile s.fs (cacheFile url) with
  | error e => exact ⟨[], by simp [phaseVerify, hrf, errSt, applyTrace]⟩
  | ok c =>
    by_cases hh : hashFn c = expected
    · exact ⟨[], by simp [phaseVerify, hrf, hh, errSt, applyTrace]⟩
    · cases hf : fetchStep remote url (cacheFile url) s with
      | error es =>
        obtain ⟨t, h1, h2, h3⟩ := fetchStep_delta remote url (cacheFile url) s
        rw [hf] at h1 h2
        obtain ⟨e1, s1⟩ := es
        exact ⟨t, by simpa [phaseVerify, hrf, hh, hf, errSt] using h1,
          by simpa [phaseVerify, hrf, hh, hf, errSt] using h2, h3⟩
      | ok s1 =>
        obtain ⟨t, h1, h2, h3⟩ := fetchStep_delta remote url (cacheFile url) s
        rw [hf] at h1 h2
        cases hrf2 : readFile s1.fs (cacheFile url) with
        | error e =>
          exact ⟨t, by simpa [phaseVerify, hrf, hh, hf, hrf2, errSt] using h1,
            by simpa [phaseVerify, hrf, hh, hf, hrf2, errSt] using h2, h3⟩
        | ok c1 =>
          by_cases hh1 : hashFn c1 = expected
          · exact ⟨t, by simpa [phaseVerify, hrf, hh, hf, hrf2, hh1, errSt] using h1,
              by simpa [phaseVerify, hrf, hh, hf, hrf2, hh1, errSt] using h2, h3⟩
          · exact ⟨t, by simpa [phaseVerify, hrf, hh, hf, hrf2, hh1, errSt] using h1,
              by simpa [phaseVerify, hrf, hh, hf, hrf2, hh1, errSt] using h2, h3⟩

theorem phaseInstall_delta (hashFn : Str → Str) (remote : Remote)
    (url dest expected : Str) (s : St) :
    ∃ t, (phaseInstall hashFn remote url dest expected s).2.trace = s.trace ++ t ∧
      (phaseInstall hashFn remote url dest expected s).2.fs = applyTrace remote s.fs t ∧
      (t = [] ∨ t = installEffs url dest) := by
  unfold phaseInstall
  by_cases hneed : (match getFile s.fs dest with
    | none => true
    | some r => hashFn r.content != expected) = true
  · by_cases hdir : dirname dest = []
    · exact ⟨[], by simp [hneed, hdir, applyTrace]⟩
    · refine ⟨installEffs url dest, ?_, ?_, Or.inr (by rfl)⟩
      · simp [hneed, hdir, stStep, installEffs]
      · simp [hneed, hdir, stStep, applyTrace, installEffs]
  · exact ⟨[], by simp [hneed, applyTrace]⟩

/-! ## Inversion lemmas for the stages -/

theorem readFile_ok_inv {fs : FS} {p c : Str} (h : readFile fs p = .ok c) :
    ∃ rec, getFile fs p = some rec ∧ rec.content = c := by
  unfold readFile at h
  split at h
  next rec heq =>
    injection h with h1
    exact ⟨rec, heq, h1⟩
  next heq => cases h

/-- After a successful verify stage, the cache file exists and its digest is
the expected one. -/
theorem phaseVerify_ok_post {hashFn : Str → Str} {remote : Remote}
    {url expected : Str} {s s2 : St}
    (h : phaseVerify hashFn remote url expected s = .ok s2) :
    ∃ rec, getFile s2.fs (cacheFile url) = some rec ∧
      hashFn rec.content = expected := by
  unfold phaseVerify at h
  split at h
  next e heq => cases h
  next c heq =>
    split at h
    next hh =>
      injection h with h1
      subst h1
      obtain ⟨rec, hg, hc⟩ := readFile_ok_inv heq
      exact ⟨rec, hg, by rw [hc]; exact hh⟩
    next hh =>
      split at h
      next e s1 heq2 => cases h
      next s1 heq2 =>
        split at h
        next e heq3 => cases h
        next c1 heq3 =>
          split at h
          next hh1 =>
            injection h with h1
            subst h1
            obtain ⟨rec, hg, hc⟩ := readFile_ok_inv heq3
            exact ⟨rec, hg, by rw [hc]; exact hh1⟩
          next hh1 => cases h

/-- Inversion of an installing outcome of the install stage. -/
theorem phaseInstall_exit_true {hashFn : Str → Str} {remote : Remote}
    {url dest expected d sha : Str} {s s' : St}
    (h : phaseInstall hashFn remote url dest expected s = (.exitJson true d sha, s')) :
    d = dest ∧ sha = expected ∧ dirname dest ≠ [] ∧
    (∀ r, getFile s.fs dest = some r → hashFn r.content ≠ expected) ∧
    s' = stStep remote (stStep remote (stStep remote s (.mkdirs (dirname dest)))
      (.replace (cacheFile url) dest)) (.chmod dest 493) := by
  simp only [phaseInstall] at h
  by_cases hneed : (match getFile s.fs dest with
      | none => true
      | some r => hashFn r.content != expected) = true
  · rw [if_pos hneed] at h
    by_cases hdir : dirname dest = []
    · rw [if_pos hdir] at h; exact absurd h (by simp)
    · rw [if_neg hdir] at h
      have h1 := congrArg Prod.fst h
      have h2 := congrArg Prod.snd h
      simp only at h1 h2
      injection h1 with _ hd hs
      refine ⟨hd.symm, hs.symm, hdir, ?_, h2.symm⟩
      intro r hg hcon
      rw [hg] at hneed
      simp only [bne_iff_ne, ne_eq, decide_eq_true_eq] at hneed
      exact hneed hcon
  · rw [if_neg hneed] at h
    have h1 := congrArg Prod.fst h
    simp only at h1
    injection h1 with hfalse _ _
    exact absurd hfalse.symm (by simp)

/-- Inversion of a no-change outcome of the install stage. -/
theorem phaseInstall_exit_false {hashFn : Str → Str} {remote : Remote}
    {url dest expected d sha : Str} {s s' : St}
    (h : phaseInstall hashFn remote url dest expected s = (.exitJson false d sha, s')) :
    d = dest ∧ sha = expected ∧ s' = s ∧
    ∃ r, getFile s.fs dest = some r ∧ hashFn r.content = expected := by
  simp only [phaseInstall] at h
  by_cases hneed : (match getFile s.fs dest with
      | none => true
      | some r => hashFn r.content != expected) = true
  · rw [if_pos hneed] at h
    by_cases hdir : dirname dest = []
    · rw [if_pos hdir] at h; exact absurd h (by simp)
    · rw [if_neg hdir] at h
      have h1 := congrArg Prod.fst h
      simp only at h1
      injection h1 with htrue _ _
      exact absurd htrue.symm (by simp)
  · rw [if_neg hneed] at h
    have h1 := congrArg Prod.fst h
    have h2 := congrArg Prod.snd h
    simp only at h1 h2
    injection h1 with _ hd hs
    refine ⟨hd.symm, hs.symm, h2.symm, ?_⟩
    cases hg : getFile s.fs dest with
    | none => rw [hg] at hneed; exact absurd rfl hneed
    | some r =>
      rw [hg] at hneed
      simp only [bne_iff_ne, ne_eq, decide_eq_true_eq] at hneed
      exact ⟨r, rfl, by push_neg at hneed; exact hneed⟩

/-- The failure arm of the install stage (raised by `os.makedirs("")`)
performs no effects. -/
theorem phaseInstall_fail_st {hashFn : Str → Str} {remote : Remote}
    {url dest expected : Str} {s : St} {mm : FailMsg}
    (h : (phaseInstall hashFn remote url dest expected s).1 = .failJson mm) :
    (phaseInstall hashFn remote url dest expected s).2 = s := by
  simp only [phaseInstall] at h ⊢
  by_cases hneed : (match getFile s.fs dest with
      | none => true
      | some r => hashFn r.content != expected) = true
  · rw [if_pos hneed] at h ⊢
    by_cases hdir : dirname dest = []
    · rw [if_pos hdir]
    · rw [if_neg hdir] at h; exact absurd h (by simp)
  · rw [if_neg hneed] at h; exact absurd h (by simp)

/-- Every run's final filesystem is the fold of its effect trace over the
initial filesystem. -/
theorem mainRun_stdelta (hashFn : Str → Str) (remote : Remote)
    (url churl dest : Str) (fs0 : FS) :
    StDelta remote ⟨fs0, []⟩ (mainRun hashFn remote url churl dest fs0).2 := by
  have hpf := phaseFetch_delta remote url churl ⟨fs0, []⟩
  unfold mainRun
  split
  next e s heq =>
    rw [heq] at hpf
    obtain ⟨t, h1, h2, _⟩ := hpf
    exact ⟨t, by simpa [errSt] using h1, by simpa [errSt] using h2⟩
  next s1 heq =>
    rw [heq] at hpf
    obtain ⟨t, h1, h2, _⟩ := hpf
    simp only [errSt] at h1 h2
    have hd1 : StDelta remote ⟨fs0, []⟩ s1 := ⟨t, h1, h2⟩
    split
    next e heq2 => exact hd1
    next man heq2 =>
      split
      next e heq3 => exact hd1
      next heq3 => exact hd1
      next expected heq3 =>
        have hpv := phaseVerify_delta hashFn remote url expected s1
        split
        next m s2 heq4 =>
          rw [heq4] at hpv
          obtain ⟨t', h1', h2', _⟩ := hpv
          simp only [errSt] at h1' h2'
          exact hd1.trans ⟨t', h1', h2'⟩
        next s2 heq4 =>
          rw [heq4] at hpv
          obtain ⟨t', h1', h2', _⟩ := hpv
          simp only [errSt] at h1' h2'
          obtain ⟨t'', h1'', h2'', _⟩ :=
            phaseInstall_delta hashFn remote url dest expected s2
          exact (hd1.trans ⟨t', h1', h2'⟩).trans ⟨t'', h1'', h2''⟩

theorem mainRun_consistent (hashFn : Str → Str) (remote : Remote)
    (url churl dest : Str) (fs0 : FS) :
    (mainRun hashFn remote url churl dest fs0).2.fs
      = applyTrace remote fs0 (mainRun hashFn remote url churl dest fs0).2.trace := by
  obtain ⟨t, h1, h2⟩ := mainRun_stdelta hashFn remote url churl dest fs0
  rw [h1, h2]
  rfl

/-- Every run's trace splits into a pre-install part consisting only of
downloads into the two cache paths, followed by either nothing or the three
install effects; a failing run performs no install effects. -/
theorem mainRun_shape (hashFn : Str → Str) (remote : Remote)
    (url churl dest : Str) (fs0 : FS) :
    ∃ preT instT,
      (mainRun hashFn remote url churl dest fs0).2.trace = preT ++ instT ∧
      (∀ e ∈ preT, e = Eff.download url (cacheFile url) ∨
        e = Eff.download churl checksumFilePath) ∧
      (instT = [] ∨ instT = installEffs url dest) ∧
      (∀ mm, (mainRun hashFn remote url churl dest fs0).1 = .failJson mm →
        instT = []) := by
  have hpf := phaseFetch_delta remote url churl ⟨fs0, []⟩
  unfold mainRun
  split
  next e s heq =>
    rw [heq] at hpf
    obtain ⟨t, h1, h2, h3⟩ := hpf
    refine ⟨t, [], ?_, h3, Or.inl (by rfl), fun _ _ => by rfl⟩
    simpa [errSt] using h1
  next s1 heq =>
    rw [heq] at hpf
    obtain ⟨t, h1, h2, h3⟩ := hpf
    simp only [errSt] at h1
    have h1' : s1.trace = t := by simpa using h1
    split
    next e heq2 =>
      exact ⟨t, [], by simpa using h1', h3, Or.inl (by rfl), fun _ _ => by rfl⟩
    next man heq2 =>
      split
      next e heq3 =>
        exact ⟨t, [], by simpa using h1', h3, Or.inl (by rfl), fun _ _ => by rfl⟩
      next heq3 =>
        exact ⟨t, [], by simpa using h1', h3, Or.inl (by rfl), fun _ _ => by rfl⟩
      next expected heq3 =>
        have hpv := phaseVerify_delta hashFn remote url expected s1
        split
        next m s2 heq4 =>
          rw [heq4] at hpv
          obtain ⟨t', h1v, h2v, h3v⟩ := hpv
          simp only [errSt] at h1v
          refine ⟨t ++ t', [], ?_, ?_, Or.inl (by rfl), fun _ _ => by rfl⟩
          · simp only [h1v, h1', List.append_nil]
          · intro e he
            rcases List.mem_append.mp he with hm | hm
            · exact h3 e hm
            · exact Or.inl (eq_of_mem_opt h3v e hm)
        next s2 heq4 =>
          rw [heq4] at hpv
          obtain ⟨t', h1v, h2v, h3v⟩ := hpv
          simp only [errSt] at h1v
          obtain ⟨t'', h1i, h2i, h3i⟩ :=
            phaseInstall_delta hashFn remote url dest expected s2
          refine ⟨t ++ t', t'', ?_, ?_, h3i, ?_⟩
          · rw [h1i, h1v, h1', List.append_assoc]
          · intro e he
            rcases List.mem_append.mp he with hm | hm
            · exact h3 e hm
            · exact Or.inl (eq_of_mem_opt h3v e hm)
          · intro mm hfail
            have hst := phaseInstall_fail_st hfail
            rcases h3i with hnil | hins
            · exact hnil
            · exfalso
              have : (phaseInstall hashFn remote url dest expected s2).2.trace
                  = s2.trace ++ t'' := h1i
              rw [hst, hins] at this
              have hlen := congrArg List.length this
              simp [installEffs] at hlen

theorem mainRun_fetch_error {hashFn : Str → Str} {remote : Remote}
    {url churl dest : Str} {fs0 : FS} {e : Exc} {s : St}
    (heq : phaseFetch remote url churl ⟨fs0, []⟩ = .error (e, s)) :
    mainRun hashFn remote url churl dest fs0 = (.failJson (.exc e), s) := by
  unfold mainRun
  simp only [heq]

/-- Whatever happens after a successful fetch stage only appends to the
trace. -/
theorem mainRun_fetch_ok_trace {hashFn : Str → Str} {remote : Remote}
    {url churl dest : Str} {fs0 : FS} {s1 : St}
    (heq : phaseFetch remote url churl ⟨fs0, []⟩ = .ok s1) :
    ∃ t, (mainRun hashFn remote url churl dest fs0).2.trace = s1.trace ++ t := by
  unfold mainRun
  split
  next e s heq2 => rw [heq] at heq2; cases heq2
  next s1' heq2 =>
    rw [heq] at heq2
    injection heq2 with hs
    subst hs
    split
    next e heq3 => exact ⟨[], by simp⟩
    next man heq3 =>
      split
      next e h4 => exact ⟨[], by simp⟩
      next h4 => exact ⟨[], by simp⟩
      next expected h4 =>
        have hpv := phaseVerify_delta hashFn remote url expected s1
        split
        next m s2 h5 =>
          rw [h5] at hpv
          obtain ⟨t', h1v, _, _⟩ := hpv
          simp only [errSt] at h1v
          exact ⟨t', h1v⟩
        next s2 h5 =>
          rw [h5] at hpv
          obtain ⟨t', h1v, _, _⟩ := hpv
          simp only [errSt] at h1v
          obtain ⟨t'', h1i, _, _⟩ :=
            phaseInstall_delta hashFn remote url dest expected s2
          exact ⟨t' ++ t'', by rw [h1i, h1v, List.append_assoc]⟩

/-- Inversion of an installing run: the reported path is the destination,
which then holds the verified content with mode 0755, and the cache file is
gone (consumed by the rename). -/
theorem mainRun_installed {hashFn : Str → Str} {remote : Remote}
    {url churl dest : Str} {fs0 : FS} {d sha : Str}
    (h : (mainRun hashFn remote url churl dest fs0).1 = .exitJson true d sha) :
    d = dest ∧ dest ≠ cacheFile url ∧
    ∃ rec : FileRec, hashFn rec.content = sha ∧
      getFile (mainRun hashFn remote url churl dest fs0).2.fs dest
        = some ⟨rec.content, 493⟩ ∧
      getFile (mainRun hashFn remote url churl dest fs0).2.fs (cacheFile url)
        = none := by
  unfold mainRun at h ⊢
  cases heq : phaseFetch remote url churl ⟨fs0, []⟩ with
  | error es =>
    obtain ⟨e0, s⟩ := es
    simp [heq] at h
  | ok s1 =>
    simp only [heq] at h ⊢
    cases h2 : readFile s1.fs checksumFilePath with
    | error e => simp [h2] at h
    | ok man =>
      simp only [h2] at h ⊢
      cases h3 : parseSha man (basename url) with
      | error e => simp [h3] at h
      | ok opt =>
        cases opt with
        | none => simp [h3] at h
        | some expected =>
          simp only [h3] at h ⊢
          cases h4 : phaseVerify hashFn remote url expected s1 with
          | error ms =>
            obtain ⟨m, s2⟩ := ms
            simp [h4] at h
          | ok s2 =>
            simp only [h4] at h ⊢
            obtain ⟨rec, hgc, hhc⟩ := phaseVerify_ok_post h4
            have hpair : phaseInstall hashFn remote url dest expected s2
                = (.exitJson true d sha,
                  (phaseInstall hashFn remote url dest expected s2).2) := by
              rw [← h]
            obtain ⟨hd, hsha, hdir, hneed, hst⟩ := phaseInstall_exit_true hpair
            have hdc : dest ≠ cacheFile url := by
              intro hcontra
              exact hneed rec (hcontra ▸ hgc) hhc
            have hcd : ¬cacheFile url = dest := fun hh => hdc hh.symm
            refine ⟨hd, hdc, rec, by rw [hsha]; exact hhc, ?_, ?_⟩
            · rw [hst]
              simp only [stStep]
              have hB : applyEff remote s2.fs (.replace (cacheFile url) dest)
                  = putFile (delFile s2.fs (cacheFile url)) dest rec := by
                simp [applyEff, hgc]
              have hC : getFile (putFile (delFile s2.fs (cacheFile url)) dest rec)
                  dest = some rec := by
                simp [getFile_putFile]
              have hA : applyEff remote s2.fs (.mkdirs (dirname dest)) = s2.fs := rfl
              rw [hA, hB]
              show getFile (applyEff remote _ (.chmod dest 493)) dest = _
              simp [applyEff, hC, getFile_putFile]
            · rw [hst]
              simp only [stStep]
              have hB : applyEff remote s2.fs (.replace (cacheFile url) dest)
                  = putFile (delFile s2.fs (cacheFile url)) dest rec := by
                simp [applyEff, hgc]
              have hC : getFile (putFile (delFile s2.fs (cacheFile url)) dest rec)
                  dest = some rec := by
                simp [getFile_putFile]
              have hA : applyEff remote s2.fs (.mkdirs (dirname dest)) = s2.fs := rfl
              rw [hA, hB]
              show getFile (applyEff remote _ (.chmod dest 493)) (cacheFile url) = _
              simp [applyEff, hC, getFile_putFile, hcd, getFile_delFile_self]

/-! ## The happy path: reachable remotes and a manifest matching the binary -/

theorem need_eq_not_upToDate (hashFn : Str → Str) (fs : FS) (dest d : Str) :
    (match getFile fs dest with
      | none => true
      | some r => hashFn r.content != d) = !(destUpToDate hashFn fs dest d) := by
  unfold destUpToDate
  cases getFile fs dest <;> simp [bne]

theorem mainRun_happy_aux (hashFn : Str → Str) (remote : Remote)
    (url churl dest : Str) (fs0 : FS) (bin man d : Str) (pre1 : List Eff)
    (hbin : remote url = some bin)
    (hman : remote churl = some man)
    (hparse : parseSha man (basename url) = Except.ok (some d))
    (hgood : hashFn bin = d)
    (hdc : dest ≠ cacheFile url)
    (hdk : dest ≠ checksumFilePath)
    (hdir : dirname dest ≠ [])
    (hpf : phaseFetch remote url churl ⟨fs0, []⟩
      = .ok ⟨applyTrace remote fs0 pre1, pre1⟩)
    (hpre1 : ∀ e ∈ pre1, e = Eff.download url (cacheFile url) ∨
      e = Eff.download churl checksumFilePath)
    (hchk : ∃ m, getFile (applyTrace remote fs0 pre1) checksumFilePath
      = some ⟨man, m⟩)
    (hrec1 : ∃ rec1, getFile (applyTrace remote fs0 pre1) (cacheFile url)
      = some rec1) :
    ∃ pre rec,
      (∀ e ∈ pre, e = Eff.download url (cacheFile url) ∨
        e = Eff.download churl checksumFilePath) ∧
      getFile (applyTrace remote fs0 pre) (cacheFile url) = some rec ∧
      hashFn rec.content = d ∧
      (mainRun hashFn remote url churl dest fs0).1
        = .exitJson (!(destUpToDate hashFn fs0 dest d)) dest d ∧
      (mainRun hashFn remote url churl dest fs0).2.trace
        = pre ++ (if destUpToDate hashFn fs0 dest d then []
            else installEffs url dest) := by
  obtain ⟨mc, hchk⟩ := hchk
  obtain ⟨rec1, hrec1⟩ := hrec1
  have hread : readFile (applyTrace remote fs0 pre1) checksumFilePath
      = .ok man := by
    simp [readFile, hchk]
  by_cases hv : hashFn rec1.content = d
  · -- the cached file already matches: no re-fetch
    have hverify : phaseVerify hashFn remote url d ⟨applyTrace remote fs0 pre1, pre1⟩
        = .ok ⟨applyTrace remote fs0 pre1, pre1⟩ := by
      simp [phaseVerify, readFile, hrec1, hv]
    have hmain : mainRun hashFn remote url churl dest fs0
        = phaseInstall hashFn remote url dest d
            ⟨applyTrace remote fs0 pre1, pre1⟩ := by
      unfold mainRun
      simp only [hpf, hread, hparse, hverify]
    have hwp : ∀ e ∈ pre1, writesPath e dest = false := by
      intro e he
      rcases hpre1 e he with rfl | rfl
      · simp only [writesPath, beq_eq_false_iff_ne, ne_eq]
        exact fun hh => hdc hh.symm
      · simp only [writesPath, beq_eq_false_iff_ne, ne_eq]
        exact fun hh => hdk hh.symm
    have hdestV : getFile (applyTrace remote fs0 pre1) dest = getFile fs0 dest :=
      applyTrace_frame remote pre1 dest hwp fs0
    refine ⟨pre1, rec1, hpre1, hrec1, hv, ?_, ?_⟩ <;>
      rw [hmain] <;>
      simp only [phaseInstall, hdestV, need_eq_not_upToDate] <;>
      by_cases hup : destUpToDate hashFn fs0 dest d <;>
      simp [hup, hdir, stStep, installEffs]
  · -- mismatch on the cached file: one re-fetch, which then matches
    obtain ⟨m2, hm2⟩ := applyEff_download_self remote (applyTrace remote fs0 pre1)
      url (cacheFile url) bin hbin
    have hverify : phaseVerify hashFn remote url d ⟨applyTrace remote fs0 pre1, pre1⟩
        = .ok (stStep remote ⟨applyTrace remote fs0 pre1, pre1⟩
            (.download url (cacheFile url))) := by
      simp [phaseVerify, readFile, hrec1, hv, fetchStep, hbin, stStep, hm2, hgood]
    have hmain : mainRun hashFn remote url churl dest fs0
        = phaseInstall hashFn remote url dest d
            (stStep remote ⟨applyTrace remote fs0 pre1, pre1⟩
              (.download url (cacheFile url))) := by
      unfold mainRun
      simp only [hpf, hread, hparse, hverify]
    have hfsV : (stStep remote ⟨applyTrace remote fs0 pre1, pre1⟩
        (.download url (cacheFile url))).fs
        = applyTrace remote fs0 (pre1 ++ [.download url (cacheFile url)]) := by
      rw [applyTrace_append]
      rfl
    have hprop : ∀ e ∈ pre1 ++ [Eff.download url (cacheFile url)],
        e = Eff.download url (cacheFile url) ∨
        e = Eff.download churl checksumFilePath := by
      intro e he
      rcases List.mem_append.mp he with hm | hm
      · exact hpre1 e hm
      · exact Or.inl (List.mem_singleton.mp hm)
    have hcacheP : getFile (applyTrace remote fs0
        (pre1 ++ [Eff.download url (cacheFile url)])) (cacheFile url)
        = some ⟨bin, m2⟩ := by
      rw [applyTrace_append]
      exact hm2
    have hwp : ∀ e ∈ pre1 ++ [Eff.download url (cacheFile url)],
        writesPath e dest = false := by
      intro e he
      rcases hprop e he with rfl | rfl
      · simp only [writesPath, beq_eq_false_iff_ne, ne_eq]
        exact fun hh => hdc hh.symm
      · simp only [writesPath, beq_eq_false_iff_ne, ne_eq]
        exact fun hh => hdk hh.symm
    have hdestV : getFile (applyTrace remote fs0
        (pre1 ++ [Eff.download url (cacheFile url)])) dest = getFile fs0 dest :=
      applyTrace_frame remote _ dest hwp fs0
    have hgd : getFile (applyEff remote (applyTrace remote fs0 pre1)
        (Eff.download url (cacheFile url))) dest = getFile fs0 dest := by
      have hh := hdestV
      rw [applyTrace_append] at hh
      simpa [applyTrace] using hh
    have hupV : destUpToDate hashFn (applyEff remote (applyTrace remote fs0 pre1)
        (Eff.download url (cacheFile url))) dest d
        = destUpToDate hashFn fs0 dest d := by
      unfold destUpToDate
      rw [hgd]
    refine ⟨pre1 ++ [.download url (cacheFile url)], ⟨bin, m2⟩, hprop, hcacheP,
      hgood, ?_, ?_⟩ <;>
      rw [hmain] <;>
      simp only [phaseInstall, stStep, need_eq_not_upToDate, hupV] <;>
      by_cases hup : destUpToDate hashFn fs0 dest d <;>
      simp [hup, hdir, installEffs]

/-- Master description of a run with both remotes reachable (stable content),
a manifest entry matching the binary, and a destination distinct from the two
cache paths, lying in a real directory.  The run reports success with
`changed` the negation of the up-to-date check on the initial filesystem; its
trace is cache downloads followed (exactly when `changed`) by the three
install effects; the cache file at the install point holds content with the
expected digest. -/
theorem mainRun_happy (hashFn : Str → Str) (remote : Remote)
    (url churl dest : Str) (fs0 : FS) (bin man d : Str)
    (hbin : remote url = some bin)
    (hman : remote churl = some man)
    (hparse : parseSha man (basename url) = Except.ok (some d))
    (hgood : hashFn bin = d)
    (hdc : dest ≠ cacheFile url)
    (hdk : dest ≠ checksumFilePath)
    (hdir : dirname dest ≠ []) :
    ∃ pre rec,
      (∀ e ∈ pre, e = Eff.download url (cacheFile url) ∨
        e = Eff.download churl checksumFilePath) ∧
      getFile (applyTrace remote fs0 pre) (cacheFile url) = some rec ∧
      hashFn rec.content = d ∧
      (mainRun hashFn remote url churl dest fs0).1
        = .exitJson (!(destUpToDate hashFn fs0 dest d)) dest d ∧
      (mainRun hashFn remote url churl dest fs0).2.trace
        = pre ++ (if destUpToDate hashFn fs0 dest d then []
            else installEffs url dest) := by
  by_cases hcache : (getFile fs0 (cacheFile url)).isSome
  · obtain ⟨c0, hc0⟩ := Option.isSome_iff_exists.mp hcache
    refine mainRun_happy_aux hashFn remote url churl dest fs0 bin man d
      [.download churl checksumFilePath] hbin hman hparse hgood hdc hdk hdir
      ?_ ?_ ?_ ?_
    · simp [phaseFetch, hcache, fetchStep, hman, stStep, applyTrace]
    · intro e he
      simp only [List.mem_singleton] at he
      exact Or.inr he
    · have hh := applyEff_download_self remote fs0 churl checksumFilePath man hman
      simpa [applyTrace] using hh
    · by_cases hqc : cacheFile url = checksumFilePath
      · obtain ⟨m, hm⟩ :=
          applyEff_download_self remote fs0 churl checksumFilePath man hman
        exact ⟨⟨man, m⟩, by rw [hqc]; simpa [applyTrace] using hm⟩
      · have hfr : getFile (applyEff remote fs0
            (.download churl checksumFilePath)) (cacheFile url)
            = getFile fs0 (cacheFile url) := by
          apply applyEff_frame
          simp only [writesPath, beq_eq_false_iff_ne, ne_eq]
          exact fun hh => hqc hh.symm
        exact ⟨c0, by simpa [applyTrace, hfr] using hc0⟩
  · refine mainRun_happy_aux hashFn remote url churl dest fs0 bin man d
      [.download url (cacheFile url), .download churl checksumFilePath]
      hbin hman hparse hgood hdc hdk hdir ?_ ?_ ?_ ?_
    · simp [phaseFetch, hcache, fetchStep, hbin, hman, stStep, applyTrace]
    · intro e he
      rcases List.mem_cons.mp he with rfl | he2
      · exact Or.inl rfl
      · exact Or.inr (List.mem_singleton.mp he2)
    · have hh := applyEff_download_self remote
        (applyEff remote fs0 (.download url (cacheFile url)))
        churl checksumFilePath man hman
      simpa [applyTrace] using hh
    · by_cases hqc : cacheFile url = checksumFilePath
      · obtain ⟨m, hm⟩ := applyEff_download_self remote
          (applyEff remote fs0 (.download url (cacheFile url)))
          churl checksumFilePath man hman
        refine ⟨⟨man, m⟩, ?_⟩
        have hx : getFile (applyTrace remote fs0
              [Eff.download url (cacheFile url),
               Eff.download churl checksumFilePath]) (cacheFile url)
            = getFile (applyTrace remote fs0
              [Eff.download url (cacheFile url),
               Eff.download churl checksumFilePath]) checksumFilePath := by
          rw [hqc]
        rw [hx]
        simpa [applyTrace] using hm
      · obtain ⟨m, hm⟩ := applyEff_download_self remote fs0 url (cacheFile url)
          bin hbin
        have hfr : getFile (applyEff remote
            (applyEff remote fs0 (.download url (cacheFile url)))
            (.download churl checksumFilePath)) (cacheFile url)
            = getFile (applyEff remote fs0 (.download url (cacheFile url)))
              (cacheFile url) := by
          apply applyEff_frame
          simp only [writesPath, beq_eq_false_iff_ne, ne_eq]
          exact fun hh => hqc hh.symm
        exact ⟨⟨bin, m⟩, by simpa [applyTrace, hfr] using hm⟩

/-- With both remotes reachable, the fetch phase succeeds and the manifest
cache afterwards holds the manifest body. -/
theorem phaseFetch_ok_manifest (remote : Remote) (url churl : Str) (fs0 : FS)
    (bin man : Str) (hbin : remote url = some bin)
    (hman : remote churl = some man) :
    ∃ s1, phaseFetch remote url churl ⟨fs0, []⟩ = .ok s1 ∧
      readFile s1.fs checksumFilePath = .ok man := by
  by_cases hcache : (getFile fs0 (cacheFile url)).isSome
  · refine ⟨stStep remote ⟨fs0, []⟩ (.download churl checksumFilePath), ?_, ?_⟩
    · simp [phaseFetch, hcache, fetchStep, hman]
    · obtain ⟨m, hm⟩ :=
        applyEff_download_self remote fs0 churl checksumFilePath man hman
      simp [readFile, stStep, hm]
  · refine ⟨stStep remote (stStep remote ⟨fs0, []⟩
      (.download url (cacheFile url))) (.download churl checksumFilePath),
      ?_, ?_⟩
    · simp [phaseFetch, hcache, fetchStep, hbin, hman]
    · obtain ⟨m, hm⟩ := applyEff_download_self remote
        (applyEff remote fs0 (.download url (cacheFile url)))
        churl checksumFilePath man hman
      simp [readFile, stStep, hm]

theorem chunkRead_foldl {α : Type} (step : α → Char → α) :
    ∀ (n : Nat) (l : Str), l.length = n →
      ∀ s : α, (chunkRead l).foldl (hashUpdate step) s = hashUpdate step s l := by
  intro n
  induction n using Nat.strong_induction_on with
  | _ n ih =>
    intro l hl s
    rw [chunkRead]
    by_cases h : l = []
    · simp [h, hashUpdate]
    · rw [dif_neg h]
      simp only [List.foldl_cons]
      have hlen : (l.drop 8192).length < n := by
        rw [List.length_drop]
        subst hl
        have hpos : 0 < l.length := List.length_pos.mpr h
        omega
      rw [ih _ hlen (l.drop 8192) rfl]
      unfold hashUpdate
      rw [← List.foldl_append, List.take_append_drop]

/-! ## Claim theorems -/

/-- C7: the streaming digest computed by reading the file in fixed-size
8192-byte chunks and updating the hash state incrementally equals the digest
of the whole content absorbed in one update, for every compression step,
initial state and finalization — the chunked implementation refines the
whole-content reference hash, so the file never has to be absorbed at
once. -/
theorem c7_chunked_hash {α : Type} (step : α → Char → α) (init : α)
    (final : α → Str) (content : Str) :
    sha256sum step init final content = sha256Ref step init final content := by
  unfold sha256sum sha256Ref
  rw [chunkRead_foldl step content.length content rfl init]

/-- C4: the expected digest is exactly the first whitespace-separated token
of the first manifest line containing the target filename as a substring
(first match wins); on the documented example manifest it returns
`abc123`; and when no line contains the basename, the run fails with the
manifest-entry-not-found error. -/
theorem c4_manifest_lookup :
    (∀ manifest bname t : Str,
      parseSha manifest bname = .ok (some t) ↔
        specExpectedDigest manifest bname = some t) ∧
    parseSha ("abc123  ctrld_amd64\ndef456  ctrld_arm64\n".toList)
      ("ctrld_amd64".toList) = .ok (some ("abc123".toList)) ∧
    (∀ (hashFn : Str → Str) (remote : Remote) (url churl dest : Str)
      (fs0 : FS) (bin man : Str),
      remote url = some bin → remote churl = some man →
      (∀ l ∈ splitLines man, strContains l (basename url) = false) →
      (mainRun hashFn remote url churl dest fs0).1
        = .failJson (.shaNotFound url)) := by
  refine ⟨?_, by decide, ?_⟩
  · intro manifest bname t
    unfold parseSha specExpectedDigest
    cases hf : (splitLines manifest).find? (fun l => strContains l bname) with
    | none => simp [hf]
    | some l =>
      cases hh : (splitWs l).head? with
      | none => simp [hf, hh]
      | some tok => simp [hf, hh]
  · intro hashFn remote url churl dest fs0 bin man hbin hman hnone
    obtain ⟨s1, hpf, hrd⟩ :=
      phaseFetch_ok_manifest remote url churl fs0 bin man hbin hman
    have hfind : (splitLines man).find?
        (fun l => strContains l (basename url)) = none :=
      List.find?_eq_none.mpr (fun l hl => by
        rw [hnone l hl]; exact Bool.false_ne_true)
    have hps : parseSha man (basename url) = .ok none := by
      simp [parseSha, hfind]
    unfold mainRun
    simp only [hpf, hrd, hps]

theorem c4_manifest_lookup_witness :
    (mainRun idDigest remNoEntry "u/b".toList "u/s".toList "/d/x".toList []).1
      = .failJson (.shaNotFound "u/b".toList) :=
  c4_manifest_lookup.2.2 idDigest remNoEntry "u/b".toList "u/s".toList
    "/d/x".toList [] "H".toList "ZZZ x\n".toList (by decide) (by decide)
    (by decide)

/-- C1 counterexample: with reachable, stable, consistent remotes and an
initially empty destination, the first run can report `changed = false`:
choose the destination equal to the binary cache path `/tmp/b`.  The initial
fetch then lands on the destination itself, the idempotence check sees a
matching digest, and the run does not report the install the claim
promises. -/
theorem c1_counterexample :
    getFile ([] : FS) ("/tmp/b".toList) = none ∧
    remGood "u/b".toList = some ("H".toList) ∧
    remGood "u/s".toList = some ("H b\n".toList) ∧
    parseSha ("H b\n".toList) (basename "u/b".toList)
      = .ok (some ("H".toList)) ∧
    idDigest "H".toList = "H".toList ∧
    (mainRun idDigest remGood "u/b".toList "u/s".toList "/tmp/b".toList []).1
      = .exitJson false "/tmp/b".toList "H".toList := by decide

/-- C1 (amended): provided the destination is distinct from the two cache
paths and has a nonempty parent directory, a run with reachable remotes and
a manifest matching the binary reports `changed` true exactly when the
destination is missing or its digest differs from the expected digest (the
up-to-date check), performs no write to the destination when it reports
false, and two successive runs from an empty destination report
`changed = true` then `changed = false`, the destination holding a file
with the expected digest (and mode 0755) after each run. -/
theorem c1_idempotent_runs (hashFn : Str → Str) (remote : Remote)
    (url churl dest : Str) (fs0 : FS) (bin man d : Str)
    (hbin : remote url = some bin)
    (hman : remote churl = some man)
    (hparse : parseSha man (basename url) = Except.ok (some d))
    (hgood : hashFn bin = d)
    (hdc : dest ≠ cacheFile url)
    (hdk : dest ≠ checksumFilePath)
    (hdir : dirname dest ≠ []) :
    (mainRun hashFn remote url churl dest fs0).1
      = .exitJson (!(destUpToDate hashFn fs0 dest d)) dest d ∧
    (destUpToDate hashFn fs0 dest d = true ↔
      ∃ r, getFile fs0 dest = some r ∧ hashFn r.content = d) ∧
    (destUpToDate hashFn fs0 dest d = true →
      ∀ e ∈ (mainRun hashFn remote url churl dest fs0).2.trace,
        writesPath e dest = false) ∧
    (getFile fs0 dest = none →
      (mainRun hashFn remote url churl dest fs0).1 = .exitJson true dest d ∧
      ∃ c : Str,
        getFile (mainRun hashFn remote url churl dest fs0).2.fs dest
          = some ⟨c, 493⟩ ∧ hashFn c = d ∧
        (mainRun hashFn remote url churl dest
            (mainRun hashFn remote url churl dest fs0).2.fs).1
          = .exitJson false dest d ∧
        getFile (mainRun hashFn remote url churl dest
            (mainRun hashFn remote url churl dest fs0).2.fs).2.fs dest
          = some ⟨c, 493⟩) := by
  obtain ⟨pre, rec, hpre, hcp, hrd, hres, htr⟩ :=
    mainRun_happy hashFn remote url churl dest fs0 bin man d
      hbin hman hparse hgood hdc hdk hdir
  have hwp : ∀ e ∈ pre, writesPath e dest = false := by
    intro e he
    rcases hpre e he with rfl | rfl
    · simp only [writesPath, beq_eq_false_iff_ne, ne_eq]
      exact fun hh => hdc hh.symm
    · simp only [writesPath, beq_eq_false_iff_ne, ne_eq]
      exact fun hh => hdk hh.symm
  refine ⟨hres, ?_, ?_, ?_⟩
  · unfold destUpToDate
    cases hg : getFile fs0 dest with
    | none => simp
    | some r =>
      constructor
      · intro hb
        exact ⟨r, rfl, by simpa using hb⟩
      · rintro ⟨r', hr', hh⟩
        injection hr' with hr''
        subst hr''
        simpa using hh
  · intro hup e he
    rw [htr, hup] at he
    simp only [if_true, List.append_nil] at he
    exact hwp e he
  · intro hd0
    have hup : destUpToDate hashFn fs0 dest d = false := by
      unfold destUpToDate
      rw [hd0]
    rw [hup] at hres htr
    have hres1 : (mainRun hashFn remote url churl dest fs0).1
        = .exitJson true dest d := by simpa using hres
    obtain ⟨-, hdc1, rec', hrec'd, hdest1, hcache1⟩ := mainRun_installed hres1
    obtain ⟨pre2, rec2, hpre2, hcp2, hrd2, hres2, htr2⟩ :=
      mainRun_happy hashFn remote url churl dest
        (mainRun hashFn remote url churl dest fs0).2.fs bin man d
        hbin hman hparse hgood hdc hdk hdir
    have hup2 : destUpToDate hashFn
        (mainRun hashFn remote url churl dest fs0).2.fs dest d = true := by
      unfold destUpToDate
      rw [hdest1]
      simpa using hrec'd
    rw [hup2] at hres2 htr2
    have hwp2 : ∀ e ∈ pre2, writesPath e dest = false := by
      intro e he
      rcases hpre2 e he with rfl | rfl
      · simp only [writesPath, beq_eq_false_iff_ne, ne_eq]
        exact fun hh => hdc hh.symm
      · simp only [writesPath, beq_eq_false_iff_ne, ne_eq]
        exact fun hh => hdk hh.symm
    have hfs2 := mainRun_consistent hashFn remote url churl dest
      (mainRun hashFn remote url churl dest fs0).2.fs
    have hkeep : getFile (mainRun hashFn remote url churl dest
        (mainRun hashFn remote url churl dest fs0).2.fs).2.fs dest
        = getFile (mainRun hashFn remote url churl dest fs0).2.fs dest := by
      rw [hfs2, htr2]
      simp only [if_true, List.append_nil]
      exact applyTrace_frame _ pre2 dest hwp2 _
    refine ⟨hres1, rec'.content, hdest1, hrec'd, by simpa using hres2, ?_⟩
    rw [hkeep]
    exact hdest1

theorem c1_idempotent_runs_witness :
    (mainRun idDigest remGood "u/b".toList "u/s".toList "/d/x".toList []).1
      = .exitJson true "/d/x".toList "H".toList ∧
    (mainRun idDigest remGood "u/b".toList "u/s".toList "/d/x".toList
        (mainRun idDigest remGood "u/b".toList "u/s".toList
          "/d/x".toList []).2.fs).1
      = .exitJson false "/d/x".toList "H".toList := by
  have h := c1_idempotent_runs idDigest remGood "u/b".toList "u/s".toList
    "/d/x".toList [] "H".toList ("H b\n".toList) "H".toList
    (by decide) (by decide) (by decide) (by decide) (by decide) (by decide)
    (by decide)
  obtain ⟨-, -, -, hc⟩ := h
  obtain ⟨h1, c, hA, hB, h2, hD⟩ := hc (by decide)
  exact ⟨h1, h2⟩

/-- C2: when the cached binary's digest at verification time differs from
the expected digest, the run performs exactly one re-fetch of the binary and
recomputes the digest; if the re-fetched content still mismatches, the run
fails with the checksum-mismatch error and the trace ends at that single
re-fetch — no further retries. -/
theorem c2_mismatch_single_retry (hashFn : Str → Str) (remote : Remote)
    (url churl dest : Str) (fs0 : FS) (bin man d : Str) (s1 : St)
    (rec1 : FileRec)
    (hbin : remote url = some bin)
    (hfetch : phaseFetch remote url churl ⟨fs0, []⟩ = .ok s1)
    (hrd : readFile s1.fs checksumFilePath = .ok man)
    (hparse : parseSha man (basename url) = .ok (some d))
    (hcache : getFile s1.fs (cacheFile url) = some rec1)
    (hmiss1 : hashFn rec1.content ≠ d)
    (hmiss2 : hashFn bin ≠ d) :
    (mainRun hashFn remote url churl dest fs0).1
      = .failJson (.checksumMismatch url) ∧
    (mainRun hashFn remote url churl dest fs0).2.trace
      = s1.trace ++ [.download url (cacheFile url)] := by
  obtain ⟨m2, hm2⟩ :=
    applyEff_download_self remote s1.fs url (cacheFile url) bin hbin
  have hverify : phaseVerify hashFn remote url d s1
      = .error (.checksumMismatch url,
          stStep remote s1 (.download url (cacheFile url))) := by
    simp [phaseVerify, readFile, hcache, hmiss1, fetchStep, hbin, stStep,
      hm2, hmiss2]
  constructor
  · unfold mainRun
    simp only [hfetch, hrd, hparse, hverify]
  · unfold mainRun
    simp only [hfetch, hrd, hparse, hverify]
    simp [stStep]

theorem c2_mismatch_single_retry_witness :
    (mainRun idDigest remBad "u/b".toList "u/s".toList "/d/x".toList []).1
      = .failJson (.checksumMismatch "u/b".toList) ∧
    (mainRun idDigest remBad "u/b".toList "u/s".toList "/d/x".toList []).2.trace
      = [Eff.download "u/b".toList (cacheFile "u/b".toList),
         Eff.download "u/s".toList checksumFilePath,
         Eff.download "u/b".toList (cacheFile "u/b".toList)] := by
  have h := c2_mismatch_single_retry idDigest remBad "u/b".toList
    "u/s".toList "/d/x".toList [] "W".toList ("H b\n".toList) "H".toList
    ⟨[(checksumFilePath, ⟨"H b\n".toList, 420⟩),
      (cacheFile "u/b".toList, ⟨"W".toList, 420⟩)],
     [.download "u/b".toList (cacheFile "u/b".toList),
      .download "u/s".toList checksumFilePath]⟩
    ⟨"W".toList, 420⟩
    (by decide) (by decide) (by decide) (by decide) (by decide) (by decide)
    (by decide)
  exact ⟨h.1, by simpa using h.2⟩

/-- C3 counterexample: a failing run can modify the destination when the
destination coincides with the manifest cache path: the unconditional
manifest download overwrites it before the run fails with the
entry-not-found error, so a pre-existing destination does not keep its
content. -/
theorem c3_counterexample :
    (mainRun idDigest remNoEntry "u/b".toList "u/s".toList checksumFilePath
        [(checksumFilePath, ⟨"OLD".toList, 493⟩)]).1
      = .failJson (.shaNotFound "u/b".toList) ∧
    getFile [(checksumFilePath, FileRec.mk "OLD".toList 493)] checksumFilePath
      = some ⟨"OLD".toList, 493⟩ ∧
    getFile (mainRun idDigest remNoEntry "u/b".toList "u/s".toList
        checksumFilePath [(checksumFilePath, ⟨"OLD".toList, 493⟩)]).2.fs
        checksumFilePath
      = some ⟨"ZZZ x\n".toList, 493⟩ := by decide

/-- C3 (amended): provided the destination path is distinct from the binary
cache path and the manifest cache path, every failing run leaves the
destination untouched: the file record at the destination after the run is
exactly the one before it (present and unchanged, or absent). -/
theorem c3_fail_leaves_dest (hashFn : Str → Str) (remote : Remote)
    (url churl dest : Str) (fs0 : FS) (m : FailMsg)
    (hdc : dest ≠ cacheFile url)
    (hdk : dest ≠ checksumFilePath)
    (hfail : (mainRun hashFn remote url churl dest fs0).1 = .failJson m) :
    getFile (mainRun hashFn remote url churl dest fs0).2.fs dest
      = getFile fs0 dest := by
  obtain ⟨preT, instT, htr, hpreT, hio, hfailnil⟩ :=
    mainRun_shape hashFn remote url churl dest fs0
  have hinst : instT = [] := hfailnil m hfail
  rw [mainRun_consistent hashFn remote url churl dest fs0, htr, hinst,
    List.append_nil]
  apply applyTrace_frame
  intro e he
  rcases hpreT e he with rfl | rfl
  · simp only [writesPath, beq_eq_false_iff_ne, ne_eq]
    exact fun hh => hdc hh.symm
  · simp only [writesPath, beq_eq_false_iff_ne, ne_eq]
    exact fun hh => hdk hh.symm

theorem c3_fail_leaves_dest_witness :
    getFile (mainRun idDigest remNoEntry "u/b".toList "u/s".toList
        "/d/x".toList [("/d/x".toList, ⟨"OLD".toList, 420⟩)]).2.fs
        "/d/x".toList
      = getFile [("/d/x".toList, FileRec.mk "OLD".toList 420)] "/d/x".toList :=
  c3_fail_leaves_dest idDigest remNoEntry "u/b".toList "u/s".toList
    "/d/x".toList [("/d/x".toList, ⟨"OLD".toList, 420⟩)]
    (.shaNotFound "u/b".toList) (by decide) (by decide) (by decide)

/-- C8: after every installing run (`changed = true`), the destination
file's permission bits are exactly 0755 (decimal 493), for every initial
filesystem — in particular regardless of the cached/source file's original
mode bits — and its content carries the verified digest. -/
theorem c8_mode_0755 (hashFn : Str → Str) (remote : Remote)
    (url churl dest : Str) (fs0 : FS) (d sha : Str)
    (h : (mainRun hashFn remote url churl dest fs0).1 = .exitJson true d sha) :
    ∃ c : Str,
      getFile (mainRun hashFn remote url churl dest fs0).2.fs dest
        = some ⟨c, 493⟩ ∧ hashFn c = sha := by
  obtain ⟨-, -, rec, hh, hdest, -⟩ := mainRun_installed h
  exact ⟨rec.content, hdest, hh⟩

theorem c8_mode_0755_witness :
    ∃ c : Str,
      getFile (mainRun idDigest remGood "u/b".toList "u/s".toList
          "/d/x".toList
          [(cacheFile "u/b".toList, ⟨"H".toList, 511⟩)]).2.fs "/d/x".toList
        = some ⟨c, 493⟩ ∧ idDigest c = "H".toList :=
  c8_mode_0755 idDigest remGood "u/b".toList "u/s".toList "/d/x".toList
    [(cacheFile "u/b".toList, ⟨"H".toList, 511⟩)] "/d/x".toList "H".toList
    (by decide)

/-- When the cache file is absent at the start of a run and the binary is
reachable, the run downloads the binary into the cache. -/
theorem mainRun_refetches_when_cache_absent (hashFn : Str → Str)
    (remote : Remote) (url churl dest : Str) (fs1 : FS) (bin : Str)
    (hc : getFile fs1 (cacheFile url) = none)
    (hbin : remote url = some bin) :
    Eff.download url (cacheFile url)
      ∈ (mainRun hashFn remote url churl dest fs1).2.trace := by
  cases hm : remote churl with
  | none =>
    have hpf : phaseFetch remote url churl ⟨fs1, []⟩
        = .error (.fetchError churl,
            stStep remote ⟨fs1, []⟩ (.download url (cacheFile url))) := by
      simp [phaseFetch, hc, fetchStep, hbin, hm]
    rw [mainRun_fetch_error hpf]
    simp [stStep]
  | some man =>
    have hpf : phaseFetch remote url churl ⟨fs1, []⟩
        = .ok (stStep remote (stStep remote ⟨fs1, []⟩
            (.download url (cacheFile url)))
            (.download churl checksumFilePath)) := by
      simp [phaseFetch, hc, fetchStep, hbin, hm]
    obtain ⟨t, htr⟩ := mainRun_fetch_ok_trace hpf
    rw [htr]
    simp [stStep]

/-- C10: every installing run consumes the cache via the rename: afterwards
the cache file no longer exists, so the immediately following invocation
with the same inputs (binary still reachable) downloads the binary again. -/
theorem c10_cache_consumed (hashFn : Str → Str) (remote : Remote)
    (url churl dest : Str) (fs0 : FS) (d sha bin : Str)
    (h : (mainRun hashFn remote url churl dest fs0).1 = .exitJson true d sha)
    (hbin : remote url = some bin) :
    getFile (mainRun hashFn remote url churl dest fs0).2.fs (cacheFile url)
      = none ∧
    Eff.download url (cacheFile url)
      ∈ (mainRun hashFn remote url churl dest
          (mainRun hashFn remote url churl dest fs0).2.fs).2.trace := by
  obtain ⟨-, -, rec, -, -, hcache⟩ := mainRun_installed h
  exact ⟨hcache, mainRun_refetches_when_cache_absent hashFn remote url churl
    dest _ bin hcache hbin⟩

theorem c10_cache_consumed_witness :
    getFile (mainRun idDigest remGood "u/b".toList "u/s".toList
        "/d/x".toList []).2.fs (cacheFile "u/b".toList) = none ∧
    Eff.download "u/b".toList (cacheFile "u/b".toList)
      ∈ (mainRun idDigest remGood "u/b".toList "u/s".toList "/d/x".toList
          (mainRun idDigest remGood "u/b".toList "u/s".toList
            "/d/x".toList []).2.fs).2.trace :=
  c10_cache_consumed idDigest remGood "u/b".toList "u/s".toList
    "/d/x".toList [] "/d/x".toList "H".toList "H".toList
    (by decide) (by decide)

/-- C6 counterexample: a run against an already-correct destination (the
run reports `changed = false`) still performs filesystem writes: the
manifest is downloaded unconditionally, so a new file appears at the
manifest cache path. -/
theorem c6_counterexample :
    (mainRun idDigest remGood "u/b".toList "u/s".toList "/d/x".toList
        [("/d/x".toList, ⟨"H".toList, 493⟩)]).1
      = .exitJson false "/d/x".toList "H".toList ∧
    getFile [("/d/x".toList, FileRec.mk "H".toList 493)] checksumFilePath
      = none ∧
    getFile (mainRun idDigest remGood "u/b".toList "u/s".toList
        "/d/x".toList [("/d/x".toList, ⟨"H".toList, 493⟩)]).2.fs
        checksumFilePath
      = some ⟨"H b\n".toList, 420⟩ := by decide

/-- C6 (amended): a run against an already-correct destination (distinct
from the two cache paths) reports `changed = false`, performs no write that
touches the destination path, and leaves the destination's record (content
and mode) untouched; the unconditional manifest download (and a binary
fetch into the cache when the cache is empty) still writes to the cache
paths. -/
theorem c6_no_dest_writes (hashFn : Str → Str) (remote : Remote)
    (url churl dest : Str) (fs0 : FS) (bin man d : Str) (r0 : FileRec)
    (hbin : remote url = some bin)
    (hman : remote churl = some man)
    (hparse : parseSha man (basename url) = Except.ok (some d))
    (hgood : hashFn bin = d)
    (hdc : dest ≠ cacheFile url)
    (hdk : dest ≠ checksumFilePath)
    (hdir : dirname dest ≠ [])
    (hr0 : getFile fs0 dest = some r0)
    (hok : hashFn r0.content = d) :
    (mainRun hashFn remote url churl dest fs0).1
      = .exitJson false dest d ∧
    (∀ e ∈ (mainRun hashFn remote url churl dest fs0).2.trace,
      writesPath e dest = false) ∧
    getFile (mainRun hashFn remote url churl dest fs0).2.fs dest
      = some r0 := by
  obtain ⟨pre, rec, hpre, hcp, hrd, hres, htr⟩ :=
    mainRun_happy hashFn remote url churl dest fs0 bin man d
      hbin hman hparse hgood hdc hdk hdir
  have hup : destUpToDate hashFn fs0 dest d = true := by
    unfold destUpToDate
    rw [hr0]
    simpa using hok
  rw [hup] at hres htr
  simp only [if_true, List.append_nil] at htr
  have hwp : ∀ e ∈ pre, writesPath e dest = false := by
    intro e he
    rcases hpre e he with rfl | rfl
    · simp only [writesPath, beq_eq_false_iff_ne, ne_eq]
      exact fun hh => hdc hh.symm
    · simp only [writesPath, beq_eq_false_iff_ne, ne_eq]
      exact fun hh => hdk hh.symm
  refine ⟨by simpa using hres, ?_, ?_⟩
  · intro e he
    rw [htr] at he
    exact hwp e he
  · rw [mainRun_consistent hashFn remote url churl dest fs0, htr,
      applyTrace_frame remote pre dest hwp fs0]
    exact hr0

theorem c6_no_dest_writes_witness :
    (mainRun idDigest remGood "u/b".toList "u/s".toList "/d/x".toList
        [("/d/x".toList, ⟨"H".toList, 448⟩)]).1
      = .exitJson false "/d/x".toList "H".toList ∧
    (∀ e ∈ (mainRun idDigest remGood "u/b".toList "u/s".toList
        "/d/x".toList [("/d/x".toList, ⟨"H".toList, 448⟩)]).2.trace,
      writesPath e "/d/x".toList = false) ∧
    getFile (mainRun idDigest remGood "u/b".toList "u/s".toList
        "/d/x".toList [("/d/x".toList, ⟨"H".toList, 448⟩)]).2.fs
        "/d/x".toList
      = some ⟨"H".toList, 448⟩ :=
  c6_no_dest_writes idDigest remGood "u/b".toList "u/s".toList
    "/d/x".toList [("/d/x".toList, ⟨"H".toList, 448⟩)]
    "H".toList ("H b\n".toList) "H".toList ⟨"H".toList, 448⟩
    (by decide) (by decide) (by decide) (by decide) (by decide) (by decide)
    (by decide) (by decide) (by decide)

/-- After a successful fetch stage, the remainder of the run appends at
most one further binary download (the mismatch re-fetch) and then either
nothing or the three install effects. -/
theorem mainRun_rest_shape (hashFn : Str → Str) (remote : Remote)
    (url churl dest : Str) (fs0 : FS) (s1 : St)
    (heq : phaseFetch remote url churl ⟨fs0, []⟩ = .ok s1) :
    ∃ tv ti,
      (mainRun hashFn remote url churl dest fs0).2.trace
        = s1.trace ++ (tv ++ ti) ∧
      (tv = [] ∨ tv = [Eff.download url (cacheFile url)]) ∧
      (ti = [] ∨ ti = installEffs url dest) := by
  unfold mainRun
  split
  next e s heq2 => rw [heq] at heq2; cases heq2
  next s1' heq2 =>
    rw [heq] at heq2
    injection heq2 with hs
    subst hs
    split
    next e heq3 => exact ⟨[], [], by simp, Or.inl rfl, Or.inl rfl⟩
    next man heq3 =>
      split
      next e h4 => exact ⟨[], [], by simp, Or.inl rfl, Or.inl rfl⟩
      next h4 => exact ⟨[], [], by simp, Or.inl rfl, Or.inl rfl⟩
      next expected h4 =>
        have hpv := phaseVerify_delta hashFn remote url expected s1
        split
        next m s2 h5 =>
          rw [h5] at hpv
          obtain ⟨tv, h1v, _, h3v⟩ := hpv
          simp only [errSt] at h1v
          exact ⟨tv, [], by simp [h1v], h3v, Or.inl rfl⟩
        next s2 h5 =>
          rw [h5] at hpv
          obtain ⟨tv, h1v, _, h3v⟩ := hpv
          simp only [errSt] at h1v
          obtain ⟨ti, h1i, _, h3i⟩ :=
            phaseInstall_delta hashFn remote url dest expected s2
          exact ⟨tv, ti, by rw [h1i, h1v, List.append_assoc], h3v, h3i⟩

/-- C9 counterexample: the binary can be fetched even though the cache file
is present at the start of the run — a stale cache triggers the checksum
re-fetch of line 61 — so "fetched iff absent" fails in the only-if
direction. -/
theorem c9_counterexample :
    (getFile [(cacheFile "u/b".toList, FileRec.mk "X".toList 420)]
        (cacheFile "u/b".toList)).isSome = true ∧
    Eff.download "u/b".toList (cacheFile "u/b".toList)
      ∈ (mainRun idDigest remGood "u/b".toList "u/s".toList "/d/x".toList
          [(cacheFile "u/b".toList, ⟨"X".toList, 420⟩)]).2.trace := by decide

/-- C9 (amended): with both remotes reachable, the fetch phase downloads
the binary into the cache exactly when the cache file is absent at the
start (a pre-existing cache file is reused with no freshness validation),
and downloads the manifest unconditionally, overwriting the manifest cache
with the fetched body; after that, the only further download the run can
perform is the single checksum-mismatch re-fetch of the binary, followed at
most by the three install effects. -/
theorem c9_fetch_policy (hashFn : Str → Str) (remote : Remote)
    (url churl dest : Str) (fs0 : FS) (bin man : Str)
    (hbin : remote url = some bin)
    (hman : remote churl = some man) :
    ∃ s1 tv ti,
      phaseFetch remote url churl ⟨fs0, []⟩ = .ok s1 ∧
      s1.trace = (if (getFile fs0 (cacheFile url)).isSome then []
          else [Eff.download url (cacheFile url)])
        ++ [Eff.download churl checksumFilePath] ∧
      (∃ mm, getFile s1.fs checksumFilePath = some ⟨man, mm⟩) ∧
      (mainRun hashFn remote url churl dest fs0).2.trace
        = s1.trace ++ (tv ++ ti) ∧
      (tv = [] ∨ tv = [Eff.download url (cacheFile url)]) ∧
      (ti = [] ∨ ti = installEffs url dest) := by
  by_cases hcache : (getFile fs0 (cacheFile url)).isSome
  · have hpf : phaseFetch remote url churl ⟨fs0, []⟩
        = .ok (stStep remote ⟨fs0, []⟩ (.download churl checksumFilePath)) := by
      simp [phaseFetch, hcache, fetchStep, hman]
    obtain ⟨tv, ti, htr, h3v, h3i⟩ :=
      mainRun_rest_shape hashFn remote url churl dest fs0 _ hpf
    obtain ⟨mm, hmm⟩ :=
      applyEff_download_self remote fs0 churl checksumFilePath man hman
    exact ⟨_, tv, ti, hpf, by simp [stStep, hcache],
      ⟨mm, by simpa [stStep] using hmm⟩, htr, h3v, h3i⟩
  · have hpf : phaseFetch remote url churl ⟨fs0, []⟩
        = .ok (stStep remote (stStep remote ⟨fs0, []⟩
            (.download url (cacheFile url)))
            (.download churl checksumFilePath)) := by
      simp [phaseFetch, hcache, fetchStep, hbin, hman]
    obtain ⟨tv, ti, htr, h3v, h3i⟩ :=
      mainRun_rest_shape hashFn remote url churl dest fs0 _ hpf
    obtain ⟨mm, hmm⟩ := applyEff_download_self remote
      (applyEff remote fs0 (.download url (cacheFile url)))
      churl checksumFilePath man hman
    exact ⟨_, tv, ti, hpf, by simp [stStep, hcache],
      ⟨mm, by simpa [stStep] using hmm⟩, htr, h3v, h3i⟩

theorem c9_fetch_policy_witness :
    ∃ s1 tv ti,
      phaseFetch remGood "u/b".toList "u/s".toList ⟨[], []⟩ = .ok s1 ∧
      s1.trace = (if (getFile ([] : FS) (cacheFile "u/b".toList)).isSome
          then [] else [Eff.download "u/b".toList (cacheFile "u/b".toList)])
        ++ [Eff.download "u/s".toList checksumFilePath] ∧
      (∃ mm, getFile s1.fs checksumFilePath = some ⟨"H b\n".toList, mm⟩) ∧
      (mainRun idDigest remGood "u/b".toList "u/s".toList "/d/x".toList
          []).2.trace = s1.trace ++ (tv ++ ti) ∧
      (tv = [] ∨ tv = [Eff.download "u/b".toList (cacheFile "u/b".toList)]) ∧
      (ti = [] ∨ ti = installEffs "u/b".toList "/d/x".toList) :=
  c9_fetch_policy idDigest remGood "u/b".toList "u/s".toList "/d/x".toList
    [] "H".toList ("H b\n".toList) (by decide) (by decide)

/-- C5 counterexample: when the destination coincides with the manifest
cache path, an intermediate point of the run (after two effects of its
trace) has the destination holding the manifest body, whose digest differs
from both the previous destination digest and the newly verified digest —
refuting "at no intermediate point does the destination hold a file whose
digest differs from both". -/
theorem c5_counterexample :
    (mainRun idDigest remGood "u/b".toList "u/s".toList checksumFilePath
        [(checksumFilePath, ⟨"OLD".toList, 420⟩)]).1
      = .exitJson true checksumFilePath "H".toList ∧
    getFile (applyTrace remGood [(checksumFilePath, ⟨"OLD".toList, 420⟩)]
        ((mainRun idDigest remGood "u/b".toList "u/s".toList checksumFilePath
          [(checksumFilePath, ⟨"OLD".toList, 420⟩)]).2.trace.take 2))
        checksumFilePath
      = some ⟨"H b\n".toList, 420⟩ ∧
    idDigest ("H b\n".toList) ≠ idDigest ("OLD".toList) ∧
    idDigest ("H b\n".toList) ≠ "H".toList := by decide

/-- C5 (amended): provided the destination is distinct from the two cache
paths (and has a nonempty parent directory), the install is the single
atomic rename of the verified cache file: folding any prefix of the run's
effect trace over the initial filesystem, the destination either holds a
file whose digest is the newly verified expected digest, or a file with the
digest the destination had initially — never a third digest, and never a
partially-written file. -/
theorem c5_atomic_install (hashFn : Str → Str) (remote : Remote)
    (url churl dest : Str) (fs0 : FS) (bin man d : Str)
    (hbin : remote url = some bin)
    (hman : remote churl = some man)
    (hparse : parseSha man (basename url) = Except.ok (some d))
    (hgood : hashFn bin = d)
    (hdc : dest ≠ cacheFile url)
    (hdk : dest ≠ checksumFilePath)
    (hdir : dirname dest ≠ []) :
    ∀ n : Nat, ∀ r : FileRec,
      getFile (applyTrace remote fs0
        ((mainRun hashFn remote url churl dest fs0).2.trace.take n)) dest
        = some r →
      hashFn r.content = d ∨
      ∃ r0, getFile fs0 dest = some r0 ∧
        hashFn r.content = hashFn r0.content := by
  obtain ⟨pre, rec, hpre, hcp, hrd, hres, htr⟩ :=
    mainRun_happy hashFn remote url churl dest fs0 bin man d
      hbin hman hparse hgood hdc hdk hdir
  have hwp : ∀ e ∈ pre, writesPath e dest = false := by
    intro e he
    rcases hpre e he with rfl | rfl
    · simp only [writesPath, beq_eq_false_iff_ne, ne_eq]
      exact fun hh => hdc hh.symm
    · simp only [writesPath, beq_eq_false_iff_ne, ne_eq]
      exact fun hh => hdk hh.symm
  have hA : getFile (applyTrace remote fs0 pre) dest = getFile fs0 dest :=
    applyTrace_frame remote pre dest hwp fs0
  intro n r hr
  rw [htr] at hr
  by_cases hup : destUpToDate hashFn fs0 dest d
  · rw [hup] at hr
    simp only [if_true, List.append_nil] at hr
    have hsub : ∀ e ∈ pre.take n, writesPath e dest = false :=
      fun e he => hwp e (List.take_subset n pre he)
    rw [applyTrace_frame remote _ dest hsub fs0] at hr
    exact Or.inr ⟨r, hr, rfl⟩
  · rw [if_neg hup, List.take_append_eq_append_take] at hr
    by_cases hn : n ≤ pre.length
    · rw [Nat.sub_eq_zero_of_le hn] at hr
      simp only [List.take_zero, List.append_nil] at hr
      have hsub : ∀ e ∈ pre.take n, writesPath e dest = false :=
        fun e he => hwp e (List.take_subset n pre he)
      rw [applyTrace_frame remote _ dest hsub fs0] at hr
      exact Or.inr ⟨r, hr, rfl⟩
    · have hlen : pre.length ≤ n := le_of_not_le hn
      rw [List.take_of_length_le hlen, applyTrace_append] at hr
      have hmk : applyEff remote (applyTrace remote fs0 pre)
          (Eff.mkdirs (dirname dest)) = applyTrace remote fs0 pre := rfl
      have hrep : applyEff remote (applyTrace remote fs0 pre)
          (Eff.replace (cacheFile url) dest)
          = putFile (delFile (applyTrace remote fs0 pre) (cacheFile url))
              dest rec := by
        simp [applyEff, hcp]
      have hgrep : getFile (putFile (delFile (applyTrace remote fs0 pre)
          (cacheFile url)) dest rec) dest = some rec := by
        simp [getFile_putFile]
      cases hk : n - pre.length with
      | zero => exact absurd (Nat.le_of_sub_eq_zero hk) hn
      | succ k1 =>
        rw [hk] at hr
        cases k1 with
        | zero =>
          simp only [installEffs, List.take_succ_cons, List.take_zero] at hr
          simp only [applyTrace_cons, applyTrace_nil] at hr
          rw [hmk, hA] at hr
          exact Or.inr ⟨r, hr, rfl⟩
        | succ k2 =>
          cases k2 with
          | zero =>
            simp only [installEffs, List.take_succ_cons, List.take_zero] at hr
            simp only [applyTrace_cons, applyTrace_nil] at hr
            rw [hmk, hrep, hgrep] at hr
            injection hr with hr'
            subst hr'
            exact Or.inl hrd
          | succ k3 =>
            simp only [installEffs, List.take_succ_cons, List.take_nil] at hr
            simp only [applyTrace_cons, applyTrace_nil] at hr
            rw [hmk, hrep] at hr
            have hchm : applyEff remote (putFile (delFile
                (applyTrace remote fs0 pre) (cacheFile url)) dest rec)
                (Eff.chmod dest 493)
                = putFile (putFile (delFile (applyTrace remote fs0 pre)
                    (cacheFile url)) dest rec) dest ⟨rec.content, 493⟩ := by
              simp [applyEff, hgrep]
            rw [hchm, getFile_putFile] at hr
            simp only [if_pos rfl] at hr
            injection hr with hr'
            subst hr'
            exact Or.inl hrd

theorem c5_atomic_install_witness :
    idDigest (FileRec.mk "H".toList 493).content = "H".toList ∨
    ∃ r0, getFile [("/d/x".toList, FileRec.mk "OLD".toList 420)]
        "/d/x".toList = some r0 ∧
      idDigest (FileRec.mk "H".toList 493).content = idDigest r0.content :=
  c5_atomic_install idDigest remGood "u/b".toList "u/s".toList
    "/d/x".toList [("/d/x".toList, ⟨"OLD".toList, 420⟩)]
    "H".toList ("H b\n".toList) "H".toList
    (by decide) (by decide) (by decide) (by decide) (by decide) (by decide)
    (by decide) 5 ⟨"H".toList, 493⟩ (by decide)
